import Mathlib

/-!
Verification of the swissknife job-dashboard core: the grouping algorithm
(GroupCommands), the per-job scheduler loop (ExecuteCommand) and the
launch-key assignment from cmd/onepage/main.go, shallowly embedded in Lean.
-/

namespace Swissknife

/-- Command represents a single command (struct Command in main.go):
name, shell command string, repeat interval in seconds (0 = run once),
and the mutable run state (Output, Status, IsRunning). -/
structure Command where
  Name : String
  Cmd : String
  Repeat : Int
  Output : String
  Status : String
  IsRunning : Bool
deriving DecidableEq, Repr

/-- Group represents a group of commands (struct Group in main.go). -/
structure Group where
  Repeating : List Command
  NonRepeating : List Command
deriving DecidableEq, Repr

/-- The members of a group in launch order: repeating first, then
non-repeating, as in the Go expression
append(group.Repeating, group.NonRepeating...). -/
def Group.members (g : Group) : List Command :=
  g.Repeating ++ g.NonRepeating

/-- The packing loop of GroupCommands once the repeating list is empty:
each iteration takes up to 2 non-repeating commands into a group with no
repeating member, until the list is exhausted. -/
def packNonRepeating : List Command → List Group
  | [] => []
  | [n] => [⟨[], [n]⟩]
  | n1 :: n2 :: ns => ⟨[], [n1, n2]⟩ :: packNonRepeating ns

/-- The packing loop of GroupCommands: while either list is nonempty,
take 1 command from the repeating list (when available) and up to 2 from
the non-repeating list into a fresh group. -/
def packGroups : List Command → List Command → List Group
  | [], ns => packNonRepeating ns
  | r :: rs, ns => ⟨[r], ns.take 2⟩ :: packGroups rs (ns.drop 2)

/-- GroupCommands groups commands into logical groups (main.go): first a
single pass separates repeating (Repeat > 0) from non-repeating commands,
preserving order; then groups of at most 1 repeating plus at most 2
non-repeating commands are formed until both lists are exhausted. -/
def GroupCommands (commands : List Command) : List Group :=
  let p := commands.partition (fun c => 0 < c.Repeat)
  packGroups p.1 p.2

/-- The result of one run of the shell command by the executor:
the text captured from stdout and stderr merged into one buffer, and
the error reported by execCmd.Run, as its text (none on exit status 0). -/
structure ExecResult where
  output : String
  err : Option String
deriving DecidableEq, Repr

/-- The status computed right after execCmd.Run in ExecuteCommand:
Completed on a nil error, Failed otherwise. -/
def runStatus (r : ExecResult) : String :=
  if r.err.isSome then "Failed" else "Completed"

/-- The locked state update of one loop iteration of ExecuteCommand in
cmd/onepage/main.go: cmd.Status is set to the computed status, then on a
non-nil error cmd.Status is overwritten with err.Error() while on success
cmd.Output is set to the captured buffer. -/
def applyRun (cmd : Command) (r : ExecResult) : Command :=
  let cmd1 := { cmd with Status := runStatus r }
  match r.err with
  | some e => { cmd1 with Status := e }
  | none => { cmd1 with Output := r.output }

/-- The locked state update of the older copy of ExecuteCommand in the
unnamed source file: cmd.Output and cmd.Status are both written
unconditionally after every run. -/
def applyRunLegacy (cmd : Command) (r : ExecResult) : Command :=
  { cmd with Output := r.output, Status := runStatus r }

/-- How one ExecuteCommand loop run ends within a given amount of fuel:
exit through the ctx.Done branch, return after a one-shot run, or fuel
exhausted with the loop still going. Each outcome carries the number of
executor invocations made so far and the final job state. -/
inductive LoopOutcome where
  | cancelled (runs : Nat) (final : Command)
  | finished (runs : Nat) (final : Command)
  | stillRunning (runs : Nat) (cur : Command)
deriving DecidableEq, Repr

/-- The ExecuteCommand loop of cmd/onepage/main.go as a step function.
Iteration i first checks the cancellation context (cancels i = true means
ctx.Done is ready at the top of iteration i, which the select statement
then takes); otherwise it invokes the executor (results i is the captured
result of that invocation), applies the locked state update, and either
recurses when cmd.Repeat > 0 or returns. fuel bounds the number of
iterations modelled; iter counts the invocations already made. -/
def ExecuteCommandLoop (results : Nat → ExecResult) (cancels : Nat → Bool) :
    Nat → Nat → Command → LoopOutcome
  | 0, iter, cmd => .stillRunning iter cmd
  | fuel + 1, iter, cmd =>
    if cancels iter then
      .cancelled iter cmd
    else
      let cmd1 := applyRun cmd (results iter)
      if 0 < cmd1.Repeat then
        ExecuteCommandLoop results cancels fuel (iter + 1) cmd1
      else
        .finished (iter + 1) cmd1

/-- The launch keys of main: for each group at index groupIndex and each
command at index paneIndex of append(group.Repeating, group.NonRepeating...),
the pair [2]int\x7bgroupIndex, paneIndex\x7d under which the child cancel
function of that command is stored in state.CancelFuncs. -/
def launchKeys (groups : List Group) : List ((Nat × Nat) × Command) :=
  groups.enum.flatMap fun gig =>
    gig.2.members.enum.map fun pic => ((gig.1, pic.1), pic.2)

end Swissknife

namespace Swissknife

theorem packNonRepeating_flatMap_repeating (ns : List Command) :
    (packNonRepeating ns).flatMap Group.Repeating = [] := by
  induction ns using packNonRepeating.induct <;> simp_all [packNonRepeating]

theorem packNonRepeating_flatMap_nonRepeating (ns : List Command) :
    (packNonRepeating ns).flatMap Group.NonRepeating = ns := by
  induction ns using packNonRepeating.induct <;> simp_all [packNonRepeating]

theorem packNonRepeating_mem (ns : List Command) :
    ∀ g ∈ packNonRepeating ns,
      g.Repeating = [] ∧ 1 ≤ g.NonRepeating.length ∧ g.NonRepeating.length ≤ 2 := by
  induction ns using packNonRepeating.induct with
  | case1 => simp [packNonRepeating]
  | case2 n => intro g hg; simp [packNonRepeating] at hg; subst hg; simp
  | case3 n1 n2 ns ih =>
      intro g hg
      rw [packNonRepeating, List.mem_cons] at hg
      rcases hg with rfl | hg
      · simp
      · exact ih g hg

theorem packNonRepeating_length (ns : List Command) :
    (packNonRepeating ns).length = (ns.length + 1) / 2 := by
  induction ns using packNonRepeating.induct <;> simp_all [packNonRepeating]
  omega

theorem packGroups_flatMap_repeating (rep non : List Command) :
    (packGroups rep non).flatMap Group.Repeating = rep := by
  induction rep generalizing non with
  | nil => simpa [packGroups] using packNonRepeating_flatMap_repeating non
  | cons r rs ih => simp [packGroups, ih]

theorem packGroups_flatMap_nonRepeating (rep non : List Command) :
    (packGroups rep non).flatMap Group.NonRepeating = non := by
  induction rep generalizing non with
  | nil => simpa [packGroups] using packNonRepeating_flatMap_nonRepeating non
  | cons r rs ih => simp [packGroups, ih]

theorem packGroups_mem (rep non : List Command) :
    ∀ g ∈ packGroups rep non, g.Repeating.length ≤ 1 ∧ g.NonRepeating.length ≤ 2 := by
  induction rep generalizing non with
  | nil =>
      intro g hg
      rw [packGroups] at hg
      have h := packNonRepeating_mem non g hg
      simp [h.1]
      omega
  | cons r rs ih =>
      intro g hg
      rw [packGroups, List.mem_cons] at hg
      rcases hg with rfl | hg
      · constructor
        · simp
        · simp
      · exact ih (non.drop 2) g hg

theorem packGroups_length (rep non : List Command) :
    (packGroups rep non).length = max rep.length ((non.length + 1) / 2) := by
  induction rep generalizing non with
  | nil => simp [packGroups, packNonRepeating_length]
  | cons r rs ih =>
      simp [packGroups, ih, List.length_drop]
      omega

theorem groupCommands_eq_packGroups (commands : List Command) :
    GroupCommands commands
      = packGroups (commands.filter fun c => 0 < c.Repeat)
          (commands.filter fun c => !decide (0 < c.Repeat)) := by
  simp [GroupCommands, List.partition_eq_filter_filter, Function.comp_def]

theorem count_flatMap_members (gs : List Group) (c : Command) :
    (gs.flatMap Group.members).count c
      = (gs.flatMap Group.Repeating).count c + (gs.flatMap Group.NonRepeating).count c := by
  induction gs with
  | nil => simp
  | cons g gs ih =>
      simp [Group.members, List.count_append, ih]
      omega

/-- C1: every job of the input appears, counted with multiplicity, in
exactly one member slot across the groups returned by GroupCommands; the
concatenation of the repeating (resp. non-repeating) members over the
groups in order is exactly the subsequence of repeating (resp.
non-repeating) input jobs in original relative order; and each group
holds at most one repeating and at most two non-repeating jobs. -/
theorem groupCommands_partition_invariant (commands : List Command) :
    (∀ c : Command,
      ((GroupCommands commands).flatMap Group.members).count c = commands.count c) ∧
    ((GroupCommands commands).flatMap Group.Repeating
      = commands.filter fun c => 0 < c.Repeat) ∧
    ((GroupCommands commands).flatMap Group.NonRepeating
      = commands.filter fun c => ¬ 0 < c.Repeat) ∧
    (∀ g ∈ GroupCommands commands,
      g.Repeating.length ≤ 1 ∧ g.NonRepeating.length ≤ 2) := by
  have hEq := groupCommands_eq_packGroups commands
  refine ⟨?_, ?_, ?_, ?_⟩
  · intro c
    rw [count_flatMap_members, hEq, packGroups_flatMap_repeating,
      packGroups_flatMap_nonRepeating]
    have h := List.count_eq_count_filter_add (fun c => 0 < c.Repeat) commands c
    simp only [decide_not] at h
    omega
  · rw [hEq, packGroups_flatMap_repeating]
  · rw [hEq, packGroups_flatMap_nonRepeating]
    refine List.filter_congr ?_
    intro c _
    rw [← decide_not, decide_eq_decide]
  · intro g hg
    rw [hEq] at hg
    exact packGroups_mem _ _ g hg

/-- C2: GroupCommands on the example input R1(repeat 5), N1, N2, N3,
R2(repeat 3) returns exactly two groups: the first with repeating member
R1 and non-repeating members N1 and N2, the second with repeating member
R2 and non-repeating member N3. -/
theorem groupCommands_example :
    GroupCommands
        [⟨"R1", "r1", 5, "", "", false⟩, ⟨"N1", "n1", 0, "", "", false⟩,
          ⟨"N2", "n2", 0, "", "", false⟩, ⟨"N3", "n3", 0, "", "", false⟩,
          ⟨"R2", "r2", 3, "", "", false⟩]
      = [⟨[⟨"R1", "r1", 5, "", "", false⟩],
            [⟨"N1", "n1", 0, "", "", false⟩, ⟨"N2", "n2", 0, "", "", false⟩]⟩,
          ⟨[⟨"R2", "r2", 3, "", "", false⟩], [⟨"N3", "n3", 0, "", "", false⟩]⟩] := by
  decide

theorem packGroups_nil_nonRepeating (rep : List Command) :
    packGroups rep [] = rep.map (fun r => ⟨[r], []⟩) := by
  induction rep with
  | nil => rfl
  | cons r rs ih => simp [packGroups, ih]

theorem packNonRepeating_dropLast (ns : List Command) :
    ∀ g ∈ (packNonRepeating ns).dropLast, g.NonRepeating.length = 2 := by
  induction ns using packNonRepeating.induct with
  | case1 => simp [packNonRepeating]
  | case2 n => simp [packNonRepeating]
  | case3 n1 n2 ns ih =>
      intro g hg
      rw [packNonRepeating] at hg
      cases h : packNonRepeating ns with
      | nil => rw [h] at hg; simp at hg
      | cons x xs =>
          rw [h, List.dropLast_cons₂, List.mem_cons] at hg
          rcases hg with rfl | hg
          · rfl
          · exact ih g (by rw [h]; exact hg)

theorem packNonRepeating_nil_iff (ns : List Command) :
    packNonRepeating ns = [] ↔ ns = [] := by
  constructor
  · intro h
    have := packNonRepeating_flatMap_nonRepeating ns
    rw [h] at this
    simpa using this.symm
  · intro h; rw [h]; rfl

theorem packNonRepeating_getLast (ns : List Command) :
    ∀ g ∈ (packNonRepeating ns).getLast?,
      g.NonRepeating.length = if ns.length % 2 = 0 then 2 else 1 := by
  induction ns using packNonRepeating.induct with
  | case1 => simp [packNonRepeating]
  | case2 n => simp [packNonRepeating]
  | case3 n1 n2 ns ih =>
      intro g hg
      rw [packNonRepeating] at hg
      cases h : packNonRepeating ns with
      | nil =>
          have hns : ns = [] := (packNonRepeating_nil_iff ns).mp h
          subst hns
          simp_all [packNonRepeating]
          rw [← hg]
          rfl
      | cons x xs =>
          rw [h, List.getLast?_cons_cons] at hg
          have hlen : (n1 :: n2 :: ns).length % 2 = ns.length % 2 := by
            simp [List.length_cons]
            omega
          rw [hlen]
          exact ih g (by rw [h]; exact hg)

/-- C3: GroupCommands on the empty list returns the empty list; on an
input where every job is repeating it returns one group per job, each a
single repeating member with no non-repeating members; on an input where
every job is non-repeating every group has no repeating member, the
groups concatenate back to the input, every group before the last has
exactly two members, and the last group has two members when the input
count is even and one when it is odd. -/
theorem groupCommands_edge_cases :
    GroupCommands [] = [] ∧
    (∀ commands : List Command, (∀ c ∈ commands, 0 < c.Repeat) →
      GroupCommands commands = commands.map fun c => ⟨[c], []⟩) ∧
    (∀ commands : List Command, (∀ c ∈ commands, c.Repeat = 0) →
      (∀ g ∈ GroupCommands commands, g.Repeating = []) ∧
      ((GroupCommands commands).flatMap Group.NonRepeating = commands) ∧
      (∀ g ∈ (GroupCommands commands).dropLast, g.NonRepeating.length = 2) ∧
      (∀ g ∈ (GroupCommands commands).getLast?,
        g.NonRepeating.length = if commands.length % 2 = 0 then 2 else 1)) := by
  refine ⟨rfl, ?_, ?_⟩
  · intro commands hall
    rw [groupCommands_eq_packGroups]
    have h1 : commands.filter (fun c => 0 < c.Repeat) = commands :=
      List.filter_eq_self.mpr fun a ha => by simpa using hall a ha
    have h2 : commands.filter (fun c => !decide (0 < c.Repeat)) = [] :=
      List.filter_eq_nil_iff.mpr fun a ha => by simpa using hall a ha
    rw [h1, h2, packGroups_nil_nonRepeating]
  · intro commands hall
    have h1 : commands.filter (fun c => 0 < c.Repeat) = [] :=
      List.filter_eq_nil_iff.mpr fun a ha => by simp [hall a ha]
    have h2 : commands.filter (fun c => !decide (0 < c.Repeat)) = commands :=
      List.filter_eq_self.mpr fun a ha => by simp [hall a ha]
    have hEq : GroupCommands commands = packNonRepeating commands := by
      rw [groupCommands_eq_packGroups, h1, h2]; rfl
    rw [hEq]
    exact ⟨fun g hg => (packNonRepeating_mem commands g hg).1,
      packNonRepeating_flatMap_nonRepeating commands,
      packNonRepeating_dropLast commands,
      packNonRepeating_getLast commands⟩

/-- Witness for C3: the all-repeating and all-non-repeating cases applied
to concrete one-job inputs. -/
theorem groupCommands_edge_cases_witness :
    (GroupCommands [⟨"a", "a", 2, "", "", false⟩]
      = [⟨"a", "a", 2, "", "", false⟩].map fun c => ⟨[c], []⟩) ∧
    ((GroupCommands [⟨"n", "n", 0, "", "", false⟩]).flatMap Group.NonRepeating
      = [⟨"n", "n", 0, "", "", false⟩]) :=
  ⟨groupCommands_edge_cases.2.1 [⟨"a", "a", 2, "", "", false⟩] (by decide),
    (groupCommands_edge_cases.2.2 [⟨"n", "n", 0, "", "", false⟩] (by decide)).2.1⟩

/-- C9: the number of groups returned by GroupCommands is the maximum of
the number of repeating jobs and the rounded-up half of the number of
non-repeating jobs. -/
theorem groupCommands_length (commands : List Command) :
    (GroupCommands commands).length
      = max (commands.countP fun c => 0 < c.Repeat)
          (((commands.countP fun c => ¬ 0 < c.Repeat) + 1) / 2) := by
  rw [groupCommands_eq_packGroups, packGroups_length,
    List.countP_eq_length_filter, List.countP_eq_length_filter]
  have h : commands.filter (fun c => !decide (0 < c.Repeat))
      = commands.filter (fun c => decide (¬ 0 < c.Repeat)) := by
    refine List.filter_congr ?_
    intro c _
    rw [← decide_not]
  rw [h]

theorem applyRun_Repeat (cmd : Command) (r : ExecResult) :
    (applyRun cmd r).Repeat = cmd.Repeat := by
  cases h : r.err <;> simp [applyRun, h]

/-- C4: a job whose repeat interval is not positive is one-shot: whenever
cancellation is not pending at the first check, the ExecuteCommand loop
invokes the executor exactly once and returns through the one-shot
branch, for every fuel bound, so the executor is never re-invoked no
matter how long the loop is allowed to run. -/
theorem executeCommand_one_shot (cmd : Command) (results : Nat → ExecResult)
    (cancels : Nat → Bool) (fuel : Nat)
    (hrep : cmd.Repeat ≤ 0) (hc : cancels 0 = false) (hf : 0 < fuel) :
    ExecuteCommandLoop results cancels fuel 0 cmd
      = .finished 1 (applyRun cmd (results 0)) := by
  cases fuel with
  | zero => omega
  | succ n =>
      have hrep1 : ¬ 0 < (applyRun cmd (results 0)).Repeat := by
        rw [applyRun_Repeat]
        omega
      simp [ExecuteCommandLoop, hc, hrep1]

/-- Witness for C4: a concrete one-shot job runs exactly once under a
fuel bound of 5 and an idle cancellation context. -/
theorem executeCommand_one_shot_witness :
    ExecuteCommandLoop (fun _ => ⟨"out", none⟩) (fun _ => false) 5 0
        ⟨"w", "whoami", 0, "", "", false⟩
      = .finished 1 (applyRun ⟨"w", "whoami", 0, "", "", false⟩ ⟨"out", none⟩) :=
  executeCommand_one_shot _ _ _ 5 (by decide) rfl (by decide)

/-- C7: when the cancellation context is observed done at the top of an
iteration, the ExecuteCommand loop exits through the ctx.Done branch at
once: the invocation count stays at iter and the job state is untouched,
so no new command execution starts after cancellation is observed. -/
theorem executeCommand_cancelled (cmd : Command) (results : Nat → ExecResult)
    (cancels : Nat → Bool) (fuel iter : Nat) (hc : cancels iter = true) :
    ExecuteCommandLoop results cancels (fuel + 1) iter cmd = .cancelled iter cmd := by
  simp [ExecuteCommandLoop, hc]

/-- Witness for C7: a loop whose context is already cancelled at the top
of its first iteration exits without any invocation. -/
theorem executeCommand_cancelled_witness :
    ExecuteCommandLoop (fun _ => ⟨"", none⟩) (fun _ => true) 3 0
        ⟨"d", "date", 1, "", "", false⟩
      = .cancelled 0 ⟨"d", "date", 1, "", "", false⟩ :=
  executeCommand_cancelled _ _ _ 2 0 rfl

/-- Counterexample to C5 as stated: a failing run whose captured buffer
is the text partial does not store that text into the Output field of
the job; the field keeps its previous value old. -/
theorem applyRun_output_cex :
    (applyRun ⟨"j", "cmd", 0, "old", "", false⟩
        ⟨"partial", some "exit status 1"⟩).Output ≠ "partial" := by
  decide

/-- C5 amended: the captured output is stored into the Output field
exactly on successful runs; on a failing run (non-nil error from
execCmd.Run) the Output field keeps its previous value and the captured
text is dropped. -/
theorem applyRun_output (cmd : Command) (r : ExecResult) :
    (applyRun cmd r).Output = if r.err.isSome then cmd.Output else r.output := by
  cases h : r.err <;> simp [applyRun, h]

/-- Counterexample to C6 as stated: on a failing run the Status field is
the error text of the run, not the string Failed. -/
theorem applyRun_status_cex :
    (applyRun ⟨"j", "cmd", 0, "", "", false⟩
        ⟨"", some "exit status 1"⟩).Status ≠ "Failed" := by
  decide

/-- C6 amended: after a run the Status field is Completed when the
command exited with status zero; when the run reports an error (launch
error or non-zero exit, both taking the same branch) the internally
computed status Failed is overwritten and Status is set to the error
text, which does encode the exit code. -/
theorem applyRun_status (cmd : Command) (r : ExecResult) :
    (applyRun cmd r).Status
      = match r.err with
        | none => "Completed"
        | some e => e := by
  cases h : r.err <;> simp [applyRun, runStatus, h]

theorem applyRunLegacy_fields (cmd : Command) (r : ExecResult) :
    (applyRunLegacy cmd r).Output = r.output
      ∧ (applyRunLegacy cmd r).Status = runStatus r := by
  simp [applyRunLegacy]

theorem launchKeys_key_list (groups : List Group) :
    (launchKeys groups).map Prod.fst
      = groups.enum.flatMap fun gig =>
          (List.range gig.2.members.length).map fun j => (gig.1, j) := by
  rw [launchKeys, List.map_flatMap]
  refine List.flatMap_congr ?_
  intro gig _
  rw [List.map_map, ← List.enum_map_fst, List.map_map]
  rfl

/-- C8: the launch keys of main are in bijection with the member slots:
a key (gi, pi) is recorded for a command exactly when that command sits
at index pi of the list append(Repeating, NonRepeating...) of the group
at index gi, so slots number the repeating members first and then the
non-repeating members in pop order; and all recorded keys are pairwise
distinct, so every launched job has its own entry in the cancel map. -/
theorem launchKeys_spec (groups : List Group) :
    ((launchKeys groups).map Prod.fst).Nodup ∧
    ∀ gi pi : Nat, ∀ c : Command,
      (((gi, pi), c) ∈ launchKeys groups
        ↔ ∃ g, groups[gi]? = some g ∧ (g.Repeating ++ g.NonRepeating)[pi]? = some c) := by
  constructor
  · rw [launchKeys_key_list, List.nodup_flatMap]
    constructor
    · intro gig _
      refine List.Nodup.map ?_ (List.nodup_range _)
      intro a b hab
      simpa using congrArg Prod.snd hab
    · have h1 : groups.enum.Pairwise (fun a b => a.1 ≠ b.1) := by
        refine List.pairwise_map.mp ?_
        rw [List.enum_map_fst]
        exact List.nodup_range _
      refine h1.imp ?_
      intro a b hne
      intro x hxa hxb
      simp only [List.mem_map] at hxa hxb
      obtain ⟨p, _, hp⟩ := hxa
      obtain ⟨q, _, hq⟩ := hxb
      apply hne
      rw [← hp] at hq
      simpa using (congrArg Prod.fst hq).symm
  · intro gi pi c
    rw [launchKeys]
    constructor
    · intro hmem
      rw [List.mem_flatMap] at hmem
      obtain ⟨gig, hgig, hin⟩ := hmem
      rw [List.mem_map] at hin
      obtain ⟨pic, hpic, heq⟩ := hin
      have hg1 : gig.1 = gi := congrArg (fun x => x.1.1) heq
      have hp1 : pic.1 = pi := congrArg (fun x => x.1.2) heq
      have hc1 : pic.2 = c := congrArg Prod.snd heq
      refine ⟨gig.2, ?_, ?_⟩
      · rw [← hg1]
        exact List.mem_enum_iff_getElem?.mp hgig
      · rw [← hp1, ← hc1]
        exact List.mem_enum_iff_getElem?.mp hpic
    · rintro ⟨g, hgg, hcc⟩
      rw [List.mem_flatMap]
      refine ⟨(gi, g), List.mem_enum_iff_getElem?.mpr hgg, ?_⟩
      rw [List.mem_map]
      exact ⟨(pi, c), List.mem_enum_iff_getElem?.mpr hcc, rfl⟩

/-- Witness for C1: the count-preservation part applied to a concrete
one-job input. -/
theorem groupCommands_partition_invariant_witness :
    ((GroupCommands [⟨"d", "df -kh", 5, "", "", false⟩]).flatMap Group.members).count
        ⟨"d", "df -kh", 5, "", "", false⟩
      = ([⟨"d", "df -kh", 5, "", "", false⟩] : List Command).count
          ⟨"d", "df -kh", 5, "", "", false⟩ :=
  (groupCommands_partition_invariant [⟨"d", "df -kh", 5, "", "", false⟩]).1
    ⟨"d", "df -kh", 5, "", "", false⟩

/-- Witness for C8: key distinctness applied to a concrete group list. -/
theorem launchKeys_spec_witness :
    ((launchKeys
        [⟨[⟨"r", "date", 1, "", "", false⟩], [⟨"n", "whoami", 0, "", "", false⟩]⟩]).map
      Prod.fst).Nodup :=
  (launchKeys_spec
    [⟨[⟨"r", "date", 1, "", "", false⟩], [⟨"n", "whoami", 0, "", "", false⟩]⟩]).1

end Swissknife
